import Mathlib

/-!
# shorturl: a verification development

A shallow embedding of `main.go` of the URL shortener: the short-code
generator `randStringBytesMaskImprSrc`, the key derivations `genLongKey`,
`genShortKey`, `genLockKey`, the renewal routine `renew` and the three
handlers that touch the store (`GET /http+`, `GET /:shortUrl`,
`GET /sub/:shortUrl`).

Conventions.
* Go strings are Lean `String`s; `[]byte(s)` is the UTF-8 byte list of `s`.
* `time.Duration` is an `Int` counting nanoseconds; the one addition the
  program performs on durations wraps at 64 bits (`int64`).
* The random source `src` is a stream `Nat → Nat` of the successive results of
  `src.Int63()` together with the number `pos` of values read so far.
* Loops that need not terminate carry a `fuel` argument bounding the number of
  iterations; running out of fuel yields `none`.
* The key-value store and the base58 encoder are libraries outside the
  repository; their models are marked as such.
-/

namespace ShortUrl

/-! ## Durations -/

/-- Wrap-around of a sum to the range of a 64-bit signed integer (`int64`). -/
def int64 (x : Int) : Int := (x + 2 ^ 63) % 2 ^ 64 - 2 ^ 63

/-- `time.Hour` in nanoseconds. -/
def timeHour : Int := 3600 * 1000000000

/-- `const secondsPerDay = 24 * time.Hour`. -/
def secondsPerDay : Int := 24 * timeHour

/-- `const defaultRenewal = 1`. -/
def defaultRenewal : Int := 1

/-! ## The key-value store -/

/-- A stored value with its remaining time to live (`none`: no expiry). -/
structure Entry where
  val : String
  ttl : Option Int
deriving DecidableEq, Repr

/-- A store state: what each key currently holds, if anything. -/
abbrev Store := String → Option Entry

/-- The store with nothing in it. -/
def emptyStore : Store := fun _ => none

namespace rdb

/-- Modelled from the spec: the store client is a library (§1, §4.3 "get").
`rdb.Get(ctx, key).Val()`: the value under `key`, the empty string when the
key is absent. -/
def Get (s : Store) (key : String) : String :=
  match s key with
  | some e => e.val
  | none => ""

/-- Modelled from the spec: the store client is a library.  A plain write of
one key; the written key carries no expiry (§9: a mapping exists without TTL
between the write and the arming of its expiry). -/
def Set (s : Store) (key val : String) : Store :=
  fun k => if k = key then some ⟨val, none⟩ else s k

/-- Modelled from the spec: the store client is a library (§4.3
"createMapping", a single multi-key set).  `rdb.MSet(ctx, k1, v1, k2, v2)`. -/
def MSet (s : Store) (k1 v1 k2 v2 : String) : Store :=
  Set (Set s k1 v1) k2 v2

/-- Modelled from the spec: the store client is a library (§4.3 "armExpiry":
sets the TTL of a key to the given duration).  `rdb.Expire(ctx, key, d)`
changes nothing when the key is absent. -/
def Expire (s : Store) (key : String) (d : Int) : Store :=
  match s key with
  | some e => fun k => if k = key then some ⟨e.val, some d⟩ else s k
  | none => s

/-- Modelled from the spec: the store client is a library (§4.3
"remainingTTL": a duration, "no-expiry" or "absent").  `rdb.TTL(ctx, key).Val()`
with the sentinels `-1` (no expiry, the literal `renew` tests) and `-2`
(absent). -/
def TTL (s : Store) (key : String) : Int :=
  match s key with
  | none => -2
  | some e =>
    match e.ttl with
    | none => -1
    | some d => d

/-- Modelled from the spec: the store client is a library (§4.3
"tryAcquireLock": set-if-absent with TTL).  `rdb.SetNX(ctx, key, v, d).Val()`
together with the store afterwards. -/
def SetNX (s : Store) (key val : String) (d : Int) : Bool × Store :=
  match s key with
  | some _ => (false, s)
  | none => (true, fun k => if k = key then some ⟨val, some d⟩ else s k)

end rdb

/-! ## Key space -/

/-- `func genLongKey(key string) string`. -/
def genLongKey (key : String) : String := "shorturl:long:" ++ key

/-- `func genShortKey(key string) string`. -/
def genShortKey (key : String) : String := "shorturl:short:" ++ key

/-- `func genLockKey(key string) string`. -/
def genLockKey (key : String) : String := "shorturl:lock:" ++ key

/-! ## base58 -/

namespace base58

/-- Modelled from the spec: `base58.Encode` belongs to the imported btcutil
library, not to the repository (§4.2 asks for a reversible binary-to-text
encoding).  The alphabet of that encoder. -/
def alphabet : String := "123456789ABCDEFGHJKLMNPQRSTUVWXYZabcdefghijkmnopqrstuvwxyz"

/-- Modelled from the spec: part of the library encoder.  The symbol of a digit. -/
def symbol (d : Nat) : Char := alphabet.data.getD d '1'

/-- Modelled from the spec: part of the library encoder.  `big.Int.SetBytes`:
the big-endian value of a byte sequence. -/
def setBytes (b : List UInt8) : Nat := b.foldl (fun x c => x * 256 + c.toNat) 0

/-- Modelled from the spec: part of the library encoder.  The loop
`for x > 0 { x, mod = x / 58, x % 58; answer = append(answer, alphabet[mod]) }`;
`fuel` bounds the iterations. -/
def digitLoop : Nat → Nat → List Char → List Char
  | 0, _, answer => answer
  | fuel + 1, x, answer =>
    if 0 < x then digitLoop fuel (x / 58) (answer ++ [symbol (x % 58)]) else answer

/-- Modelled from the spec: part of the library encoder.  The loop that appends
one `alphabet[0]` per leading zero byte. -/
def leadingZeros : List UInt8 → List Char
  | [] => []
  | c :: rest => if c ≠ 0 then [] else symbol 0 :: leadingZeros rest

/-- Modelled from the spec: `base58.Encode` of the imported btcutil library.
The base-58 digits of the big-endian value of `b`, least significant first,
then one `1` per leading zero byte, the whole reversed.  A byte sequence of
length `n` has fewer than `2 * n + 1` base-58 digits, so the loop never runs
out of the fuel given here. -/
def Encode (b : List UInt8) : String :=
  String.mk ((digitLoop (2 * b.length) (setBytes b) [] ++ leadingZeros b).reverse)

end base58

/-- `[]byte(s)`: the bytes of a string. -/
def bytes (s : String) : List UInt8 := s.toUTF8.data.toList

/-! ## Code generator -/

/-- `const letterBytes`. -/
def letterBytes : String := "0123456789abcdefghijklmnopqrstuvwxyzABCDEFGHIJKLMNOPQRSTUVWXYZ"

/-- `letterIdxBits = 6`. -/
def letterIdxBits : Nat := 6

/-- `letterIdxMask = 1<<letterIdxBits - 1`. -/
def letterIdxMask : Nat := 1 <<< letterIdxBits - 1

/-- `letterIdxMax = 63 / letterIdxBits`. -/
def letterIdxMax : Nat := 63 / letterIdxBits

/-- The `for` loop of `randStringBytesMaskImprSrc`.  State: the buffer `b`, the
index `i`, `cache`, `remain`, and `pos`, the number of values read from the
source so far.  `fuel` bounds the number of iterations. -/
def genLoop (src : Nat → Nat) : Nat → List Char → Int → Nat → Nat → Nat → Option (List Char × Nat)
  | 0, _, _, _, _, _ => none
  | fuel + 1, b, i, cache, remain, pos =>
    if i < 0 then some (b, pos)
    else
      let cache1 := if remain = 0 then src pos else cache
      let remain1 := if remain = 0 then letterIdxMax else remain
      let pos1 := if remain = 0 then pos + 1 else pos
      let idx := cache1 &&& letterIdxMask
      if h : idx < letterBytes.length then
        genLoop src fuel (b.set i.toNat (letterBytes.data.get ⟨idx, h⟩)) (i - 1)
          (cache1 >>> letterIdxBits) (remain1 - 1) pos1
      else
        genLoop src fuel b i (cache1 >>> letterIdxBits) (remain1 - 1) pos1

/-- `func randStringBytesMaskImprSrc(n int) string` for `n ≥ 0`: the string and
the number of source values read once the loop has ended, `none` when `fuel`
iterations do not end it. -/
def randStringBytesMaskImprSrc (src : Nat → Nat) (pos fuel n : Nat) : Option (String × Nat) :=
  (genLoop src fuel (List.replicate n (Char.ofNat 0)) ((n : Int) - 1) (src pos) letterIdxMax
    (pos + 1)).map (fun r => (String.mk r.1, r.2))

/-! ## Renewal and the handlers -/

/-- `func renew(shortUrl, longUrl string)`, as a store transformer. -/
def renew (s : Store) (shortUrl longUrl : String) : Store :=
  let lock := rdb.SetNX s (genLockKey shortUrl) "1" (defaultRenewal * secondsPerDay)
  if lock.1 then
    let ttlDuration := rdb.TTL lock.2 (genShortKey shortUrl)
    if ttlDuration ≠ -1 then
      let s1 := rdb.Expire lock.2 (genLongKey (base58.Encode (bytes longUrl)))
        (int64 (ttlDuration + defaultRenewal * secondsPerDay))
      rdb.Expire s1 (genShortKey shortUrl) (int64 (ttlDuration + defaultRenewal * secondsPerDay))
    else lock.2
  else lock.2

/-- What a handler answers. -/
inductive Response where
  | sendString (body : String)
  | redirect (location : String) (status : Nat)
  | proxyDo (target : String)
deriving DecidableEq, Repr

/-- The text both resolve handlers send on a miss. -/
def notFound : Response := Response.sendString "短链接不存在或已过期！！！"

/-- Outcome of the shorten handler: the short code, the response, the store
afterwards and the number of source values read so far. -/
structure Shortened where
  shortUrl : String
  resp : Response
  store : Store
  pos : Nat

/-- The tail of the shorten handler, from `xlog.Println("shorten:", …)` on: arm
both expiries and answer. -/
def shortenFinish (domain : String) (ttl : Int) (s : Store) (pos : Nat)
    (b58LongUrl shortUrl : String) : Shortened :=
  let s1 := rdb.Expire s (genLongKey b58LongUrl) ttl
  let s2 := rdb.Expire s1 (genShortKey shortUrl) ttl
  ⟨shortUrl, Response.sendString ("https://" ++ domain ++ "/" ++ shortUrl), s2, pos⟩

/-- The handler of `GET /http+`; `longUrl` is `c.OriginalURL()[1:]`.  `none`
when the code generator does not finish within `fuel` iterations. -/
def shortenHandler (domain : String) (ttl : Int) (src : Nat → Nat) (fuel : Nat)
    (s : Store) (pos : Nat) (longUrl : String) : Option Shortened :=
  let b58LongUrl := base58.Encode (bytes longUrl)
  let shortUrl := rdb.Get s (genLongKey b58LongUrl)
  if shortUrl = "" then
    match randStringBytesMaskImprSrc src pos fuel 6 with
    | none => none
    | some (shortUrl, pos1) =>
      let s1 := rdb.MSet s (genLongKey b58LongUrl) shortUrl (genShortKey shortUrl) longUrl
      some (shortenFinish domain ttl s1 pos1 b58LongUrl shortUrl)
  else
    some (shortenFinish domain ttl s pos b58LongUrl shortUrl)

/-- The handler of `GET /:shortUrl`. -/
def resolveHandler (s : Store) (shortUrl : String) : Response × Store :=
  let longUrl := rdb.Get s (genShortKey shortUrl)
  if longUrl = "" then (notFound, s)
  else (Response.redirect longUrl 301, renew s shortUrl longUrl)

/-- The handler of `GET /sub/:shortUrl`. -/
def subHandler (s : Store) (shortUrl : String) : Response × Store :=
  let longUrl := rdb.Get s (genShortKey shortUrl)
  if longUrl = "" then (notFound, s)
  else (Response.proxyDo longUrl, renew s shortUrl longUrl)

/-! ## Concrete stores used as test inputs -/

/-- A store in which the renewal lock of `abc123` is held. -/
def lockedStore : Store := rdb.Set emptyStore (genLockKey "abc123") "1"

/-- A store holding the mapping (`http://a`, `abc123`) in both directions, both
keys with remaining TTL `R`, and no renewal lock. -/
def mappedStore (R : Int) : Store :=
  rdb.Expire
    (rdb.Expire
      (rdb.MSet emptyStore (genLongKey (base58.Encode (bytes "http://a"))) "abc123"
        (genShortKey "abc123") "http://a")
      (genLongKey (base58.Encode (bytes "http://a"))) R)
    (genShortKey "abc123") R

/-- A store holding only the reverse entry of `http://a`: its forward key is gone. -/
def reverseOnlyStore : Store :=
  rdb.Set emptyStore (genLongKey (base58.Encode (bytes "http://a"))) "abc123"

/-! ## Counting what the random source offers -/

/-- Among the `remain` lowest 6-bit chunks of `cache`, the number the loop of the
generator accepts (chunks that index into `letterBytes`). -/
def accepted : Nat → Nat → Nat
  | 0, _ => 0
  | remain + 1, cache =>
    (if cache &&& letterIdxMask < letterBytes.length then 1 else 0)
      + accepted remain (cache >>> letterIdxBits)

/-- The number of accepted chunks in the `k` source values from position `pos` on,
`letterIdxMax` chunks per value. -/
def offered (src : Nat → Nat) (pos : Nat) : Nat → Nat
  | 0 => 0
  | k + 1 => accepted letterIdxMax (src pos) + offered src (pos + 1) k

/-- The source that always returns `2^63 - 1`, the largest 63-bit value. -/
def allOnes : Nat → Nat := fun _ => 2 ^ 63 - 1

/-! ## Sequences of calls -/

/-- A call to one of the three handlers that touch the store; a shorten call
carries the fuel granted to the code generator. -/
inductive Op where
  | shorten (longUrl : String) (fuel : Nat)
  | resolve (shortUrl : String)
  | sub (shortUrl : String)

/-- What one call leaves behind: the response, the code it generated afresh (if
any), the store and the position in the random source. -/
structure Outcome where
  resp : Response
  fresh : Option String
  store : Store
  pos : Nat

/-- One call against the service, started with the flags `domain` and `ttl` and
the random source `src`. -/
def step (domain : String) (ttl : Int) (src : Nat → Nat) (s : Store) (pos : Nat) :
    Op → Option Outcome
  | Op.shorten longUrl fuel =>
    (shortenHandler domain ttl src fuel s pos longUrl).map fun r =>
      ⟨r.resp,
        if rdb.Get s (genLongKey (base58.Encode (bytes longUrl))) = "" then some r.shortUrl
        else none,
        r.store, r.pos⟩
  | Op.resolve shortUrl =>
    some ⟨(resolveHandler s shortUrl).1, none, (resolveHandler s shortUrl).2, pos⟩
  | Op.sub shortUrl =>
    some ⟨(subHandler s shortUrl).1, none, (subHandler s shortUrl).2, pos⟩

/-- A sequence of calls, one after the other with no time passing: the final
store, the final source position and the codes generated afresh on the way. -/
def run (domain : String) (ttl : Int) (src : Nat → Nat) :
    Store → Nat → List Op → Option (Store × Nat × List String)
  | s, pos, [] => some (s, pos, [])
  | s, pos, op :: ops =>
    match step domain ttl src s pos op with
    | none => none
    | some o =>
      (run domain ttl src o.store o.pos ops).map fun w =>
        (w.1, w.2.1, o.fresh.toList ++ w.2.2)

/-- A source whose values are pairwise distinct and all have their 36 low bits
clear, so that every code generated from it is `000000`. -/
def collidingSrc : Nat → Nat := fun k => k * 2 ^ 36

/-! ## Reading back a base58 string -/

namespace base58

/-- The number of leading zero bytes of a byte sequence. -/
def zeroCount : List UInt8 → Nat
  | [] => 0
  | c :: rest => if c ≠ 0 then 0 else zeroCount rest + 1

/-- A byte sequence without its leading zero bytes. -/
def stripZeros : List UInt8 → List UInt8
  | [] => []
  | c :: rest => if c ≠ 0 then c :: rest else stripZeros rest

end base58

/-! ## One iteration of the generator loop -/

/-- The buffer after one iteration that looks at `cache`. -/
def stepBuf (b : List Char) (i : Int) (cache : Nat) : List Char :=
  if h : cache &&& letterIdxMask < letterBytes.length then
    b.set i.toNat (letterBytes.data.get ⟨cache &&& letterIdxMask, h⟩)
  else b

/-- The index after one iteration that looks at `cache`. -/
def stepIdx (i : Int) (cache : Nat) : Int :=
  if cache &&& letterIdxMask < letterBytes.length then i - 1 else i

/-- Every position of the buffer above index `i` holds a symbol of `letterBytes`. -/
def FilledAbove (b : List Char) (i : Int) : Prop :=
  ∀ (j : Nat) (ch : Char), i < (j : Int) → b[j]? = some ch → ch ∈ letterBytes.data


/-! ## Keys: the three name spaces are disjoint and each derivation is injective -/

theorem genLongKey_ne_genShortKey (a b : String) : genLongKey a ≠ genShortKey b := by
  intro h
  have := congrArg String.data h
  simp [genLongKey, genShortKey, String.data_append] at this

theorem genLongKey_ne_genLockKey (a b : String) : genLongKey a ≠ genLockKey b := by
  intro h
  have := congrArg String.data h
  simp [genLongKey, genLockKey, String.data_append] at this

theorem genShortKey_ne_genLockKey (a b : String) : genShortKey a ≠ genLockKey b := by
  intro h
  have := congrArg String.data h
  simp [genShortKey, genLockKey, String.data_append] at this

theorem genShortKey_inj {a b : String} (h : genShortKey a = genShortKey b) : a = b := by
  have := congrArg String.data h
  simp [genShortKey, String.data_append] at this
  exact String.ext this

theorem genLongKey_inj {a b : String} (h : genLongKey a = genLongKey b) : a = b := by
  have := congrArg String.data h
  simp [genLongKey, String.data_append] at this
  exact String.ext this

/-! ## Store lemmas -/

namespace rdb

theorem Get_Expire (s : Store) (key : String) (d : Int) (k : String) :
    Get (Expire s key d) k = Get s k := by
  unfold Get Expire
  cases h : s key with
  | none => rfl
  | some e =>
    by_cases hk : k = key
    · subst hk; simp [h]
    · simp [hk]

theorem Expire_present (s : Store) (key : String) (d : Int) (e : Entry) (h : s key = some e) :
    Expire s key d key = some ⟨e.val, some d⟩ := by
  simp [Expire, h]

theorem Expire_other (s : Store) (key : String) (d : Int) (k : String) (hk : k ≠ key) :
    Expire s key d k = s k := by
  unfold Expire
  cases h : s key with
  | none => rfl
  | some e => simp [hk]

theorem Expire_absent (s : Store) (key : String) (d : Int) (h : s key = none) :
    Expire s key d = s := by
  simp [Expire, h]

end rdb

theorem Get_renew_of_ne_lock (s : Store) (c L k : String) (hk : k ≠ genLockKey c) :
    rdb.Get (renew s c L) k = rdb.Get s k := by
  unfold renew
  have hnx : rdb.Get (rdb.SetNX s (genLockKey c) "1" (defaultRenewal * secondsPerDay)).2 k
      = rdb.Get s k := by
    unfold rdb.SetNX rdb.Get
    cases h : s (genLockKey c) with
    | none => simp [hk]
    | some e => rfl
  dsimp only
  split
  · split
    · rw [rdb.Get_Expire, rdb.Get_Expire, hnx]
    · exact hnx
  · exact hnx

theorem renew_of_locked (s : Store) (c L : String) (h : (s (genLockKey c)).isSome) :
    renew s c L = s := by
  unfold renew rdb.SetNX
  cases hs : s (genLockKey c) with
  | none => simp [hs] at h
  | some e => simp

theorem renew_lock_present (s : Store) (c L : String) :
    ((renew s c L) (genLockKey c)).isSome := by
  cases hs : s (genLockKey c) with
  | some e => rw [renew_of_locked s c L (by simp [hs])]; simp [hs]
  | none =>
    have hnx : ((rdb.SetNX s (genLockKey c) "1" (defaultRenewal * secondsPerDay)).2
        (genLockKey c)).isSome := by
      simp [rdb.SetNX, hs]
    unfold renew
    dsimp only
    split
    · split
      · rw [rdb.Expire_other _ _ _ _ (genShortKey_ne_genLockKey c c).symm,
          rdb.Expire_other _ _ _ _ (genLongKey_ne_genLockKey _ c).symm]
        exact hnx
      · exact hnx
    · exact hnx


/-! ## The generator loop -/

theorem genLoop_done (src : Nat → Nat) (fuel : Nat) (b : List Char) (i : Int)
    (cache remain pos : Nat) (hi : i < 0) :
    genLoop src (fuel + 1) b i cache remain pos = some (b, pos) := by
  simp [genLoop, hi]

theorem genLoop_cached (src : Nat → Nat) (fuel : Nat) (b : List Char) (i : Int)
    (cache remain pos : Nat) (hi : ¬ i < 0) :
    genLoop src (fuel + 1) b i cache (remain + 1) pos
      = genLoop src fuel (stepBuf b i cache) (stepIdx i cache) (cache >>> letterIdxBits)
          remain pos := by
  rw [genLoop]
  simp only [if_neg hi, Nat.add_one_ne_zero, if_false, Nat.add_sub_cancel, stepBuf, stepIdx]
  split <;> rfl

theorem genLoop_refill (src : Nat → Nat) (fuel : Nat) (b : List Char) (i : Int)
    (cache pos : Nat) (hi : ¬ i < 0) :
    genLoop src (fuel + 1) b i cache 0 pos
      = genLoop src fuel (stepBuf b i (src pos)) (stepIdx i (src pos))
          (src pos >>> letterIdxBits) (letterIdxMax - 1) (pos + 1) := by
  rw [genLoop]
  simp only [if_neg hi, if_true, stepBuf, stepIdx]
  split <;> rfl

theorem stepBuf_length (b : List Char) (i : Int) (cache : Nat) :
    (stepBuf b i cache).length = b.length := by
  unfold stepBuf
  split
  · simp
  · rfl

theorem accepted_succ (remain cache : Nat) (i : Int) :
    (stepIdx i cache + 1 : Int) + (accepted (remain + 1) cache : Nat)
      = (i + 1) + (accepted remain (cache >>> letterIdxBits) : Nat) := by
  unfold stepIdx
  rw [accepted]
  split <;> push_cast <;> omega

theorem accepted_zero (cache : Nat) : accepted 0 cache = 0 := rfl

theorem offered_succ (src : Nat → Nat) (pos k : Nat) :
    offered src pos (k + 1)
      = accepted ((letterIdxMax - 1) + 1) (src pos) + offered src (pos + 1) k := rfl

theorem genLoop_length (src : Nat → Nat) (fuel : Nat) :
    ∀ (b : List Char) (i : Int) (cache remain pos : Nat) (r : List Char × Nat),
      genLoop src fuel b i cache remain pos = some r → r.1.length = b.length := by
  induction fuel with
  | zero => intro b i cache remain pos r h; simp [genLoop] at h
  | succ fuel ih =>
    intro b i cache remain pos r h
    by_cases hi : i < 0
    · rw [genLoop_done _ _ _ _ _ _ _ hi] at h
      simp at h; rw [← h]
    · cases remain with
      | zero =>
        rw [genLoop_refill _ _ _ _ _ _ hi] at h
        rw [ih _ _ _ _ _ _ h, stepBuf_length]
      | succ remain =>
        rw [genLoop_cached _ _ _ _ _ _ _ hi] at h
        rw [ih _ _ _ _ _ _ h, stepBuf_length]

theorem FilledAbove_step (b : List Char) (i : Int) (cache : Nat) (hi : ¬ i < 0)
    (hb : FilledAbove b i) : FilledAbove (stepBuf b i cache) (stepIdx i cache) := by
  unfold stepBuf stepIdx
  split
  · intro j ch hj hget
    rw [List.getElem?_set] at hget
    by_cases hij : i.toNat = j
    · rw [if_pos hij] at hget
      split at hget
      · simp only [Option.some.injEq] at hget
        rw [← hget]
        exact List.get_mem _ _ _
      · simp at hget
    · rw [if_neg hij] at hget
      exact hb j ch (by omega) hget
  · exact hb

theorem genLoop_alphabet (src : Nat → Nat) (fuel : Nat) :
    ∀ (b : List Char) (i : Int) (cache remain pos : Nat) (r : List Char × Nat),
      FilledAbove b i → genLoop src fuel b i cache remain pos = some r →
      ∀ ch ∈ r.1, ch ∈ letterBytes.data := by
  induction fuel with
  | zero => intro b i cache remain pos r _ h; simp [genLoop] at h
  | succ fuel ih =>
    intro b i cache remain pos r hb h
    by_cases hi : i < 0
    · rw [genLoop_done _ _ _ _ _ _ _ hi] at h
      simp only [Option.some.injEq] at h
      intro ch hch
      rw [← h] at hch
      obtain ⟨j, hj⟩ := List.mem_iff_getElem?.1 hch
      exact hb j ch (by omega) hj
    · cases remain with
      | zero =>
        rw [genLoop_refill _ _ _ _ _ _ hi] at h
        exact ih _ _ _ _ _ _ (FilledAbove_step b i _ hi hb) h
      | succ remain =>
        rw [genLoop_cached _ _ _ _ _ _ _ hi] at h
        exact ih _ _ _ _ _ _ (FilledAbove_step b i _ hi hb) h

theorem FilledAbove_replicate (n : Nat) :
    FilledAbove (List.replicate n (Char.ofNat 0)) ((n : Int) - 1) := by
  intro j ch hj hget
  rw [List.getElem?_replicate] at hget
  split at hget
  · omega
  · simp at hget

theorem rand_shape (src : Nat → Nat) (pos fuel n : Nat) (s : String) (pos1 : Nat)
    (h : randStringBytesMaskImprSrc src pos fuel n = some (s, pos1)) :
    s.length = n ∧ ∀ ch ∈ s.data, ch ∈ letterBytes.data := by
  unfold randStringBytesMaskImprSrc at h
  rw [Option.map_eq_some'] at h
  obtain ⟨r, hr, hs⟩ := h
  simp only [Prod.mk.injEq] at hs
  obtain ⟨hs1, _⟩ := hs
  subst hs1
  constructor
  · have := genLoop_length src fuel _ _ _ _ _ _ hr
    simpa [String.length] using this
  · exact genLoop_alphabet src fuel _ _ _ _ _ _ (FilledAbove_replicate n) hr

/-- Enough accepted chunks end the loop: if the chunks left in `cache` and the
next `k` source values offer at least `i + 1` accepted chunks, some amount of
fuel makes the loop return, having read at most `k` further values. -/
theorem genLoop_terminates (src : Nat → Nat) (k : Nat) :
    ∀ (remain : Nat) (b : List Char) (i : Int) (cache pos : Nat),
      i + 1 ≤ ((accepted remain cache : Nat) : Int) + (offered src pos k : Nat) →
      ∃ fuel r, genLoop src fuel b i cache remain pos = some r ∧ r.2 ≤ pos + k := by
  induction k with
  | zero =>
    intro remain
    induction remain with
    | zero =>
      intro b i cache pos h
      have hi : i < 0 := by simp [accepted, offered] at h; omega
      exact ⟨1, (b, pos), genLoop_done _ _ _ _ _ _ _ hi, by simp⟩
    | succ r ihr =>
      intro b i cache pos h
      by_cases hi : i < 0
      · exact ⟨1, (b, pos), genLoop_done _ _ _ _ _ _ _ hi, by simp⟩
      · obtain ⟨fuel, res, hres, hle⟩ := ihr (stepBuf b i cache) (stepIdx i cache)
          (cache >>> letterIdxBits) pos (by have := accepted_succ r cache i; omega)
        exact ⟨fuel + 1, res, by rw [genLoop_cached _ _ _ _ _ _ _ hi, hres], hle⟩
  | succ k ihk =>
    intro remain
    induction remain with
    | zero =>
      intro b i cache pos h
      by_cases hi : i < 0
      · exact ⟨1, (b, pos), genLoop_done _ _ _ _ _ _ _ hi, by simp⟩
      · obtain ⟨fuel, res, hres, hle⟩ := ihk (letterIdxMax - 1) (stepBuf b i (src pos))
          (stepIdx i (src pos)) (src pos >>> letterIdxBits) (pos + 1)
          (by
            have := accepted_succ (letterIdxMax - 1) (src pos) i
            rw [offered_succ, accepted_zero] at h
            push_cast at h this ⊢
            omega)
        exact ⟨fuel + 1, res, by rw [genLoop_refill _ _ _ _ _ _ hi, hres], by omega⟩
    | succ r ihr =>
      intro b i cache pos h
      by_cases hi : i < 0
      · exact ⟨1, (b, pos), genLoop_done _ _ _ _ _ _ _ hi, by simp⟩
      · obtain ⟨fuel, res, hres, hle⟩ := ihr (stepBuf b i cache) (stepIdx i cache)
          (cache >>> letterIdxBits) pos (by have := accepted_succ r cache i; omega)
        exact ⟨fuel + 1, res, by rw [genLoop_cached _ _ _ _ _ _ _ hi, hres], hle⟩

/-- Only accepted chunks end the loop: a run that returns has been offered at
least `i + 1` accepted chunks by `cache` and the source values it read. -/
theorem genLoop_needs (src : Nat → Nat) (fuel : Nat) :
    ∀ (remain : Nat) (b : List Char) (i : Int) (cache pos : Nat) (r : List Char × Nat),
      genLoop src fuel b i cache remain pos = some r →
      pos ≤ r.2 ∧
        i + 1 ≤ ((accepted remain cache : Nat) : Int) + (offered src pos (r.2 - pos) : Nat) := by
  induction fuel with
  | zero => intro remain b i cache pos r h; simp [genLoop] at h
  | succ fuel ih =>
    intro remain b i cache pos r h
    by_cases hi : i < 0
    · rw [genLoop_done _ _ _ _ _ _ _ hi] at h
      simp only [Option.some.injEq] at h
      subst h
      exact ⟨le_refl _, by omega⟩
    · cases remain with
      | zero =>
        rw [genLoop_refill _ _ _ _ _ _ hi] at h
        obtain ⟨hle, hacc⟩ := ih _ _ _ _ _ _ h
        refine ⟨by omega, ?_⟩
        have e : r.2 - pos = (r.2 - (pos + 1)) + 1 := by omega
        have := accepted_succ (letterIdxMax - 1) (src pos) i
        rw [e, offered_succ, accepted_zero]
        push_cast at hacc this ⊢
        omega
      | succ remain =>
        rw [genLoop_cached _ _ _ _ _ _ _ hi] at h
        obtain ⟨hle, hacc⟩ := ih _ _ _ _ _ _ h
        refine ⟨hle, ?_⟩
        have := accepted_succ remain cache i
        omega

/-! ## A source on which the loop never ends -/

theorem allOnes_chunk_rejected (m : Nat) :
    ¬ ((2 ^ (m + 6) - 1) &&& letterIdxMask < letterBytes.length) := by
  have hmask : letterIdxMask = 2 ^ 6 - 1 := by decide
  have hlen : letterBytes.length = 62 := by decide
  rw [hmask, Nat.and_pow_two_sub_one_eq_mod, hlen, pow_add]
  have : 0 < 2 ^ m := Nat.pow_pos (by decide)
  omega

theorem allOnes_shift (m : Nat) :
    (2 ^ (m + 6) - 1) >>> letterIdxBits = 2 ^ m - 1 := by
  have hbits : letterIdxBits = 6 := rfl
  rw [hbits, Nat.shiftRight_eq_div_pow, pow_add]
  have : 0 < 2 ^ m := Nat.pow_pos (by decide)
  omega

theorem allOnes_step (b : List Char) (i : Int) (m : Nat) :
    stepBuf b i (2 ^ (m + 6) - 1) = b ∧ stepIdx i (2 ^ (m + 6) - 1) = i := by
  unfold stepBuf stepIdx
  simp [allOnes_chunk_rejected m]

theorem genLoop_allOnes (fuel : Nat) :
    ∀ (remain : Nat) (b : List Char) (i : Int) (pos : Nat), ¬ i < 0 →
      genLoop allOnes fuel b i (2 ^ (6 * remain + 3) - 1) remain pos = none := by
  induction fuel with
  | zero => intro remain b i pos _; rfl
  | succ fuel ih =>
    intro remain b i pos hi
    cases remain with
    | zero =>
      rw [genLoop_refill _ _ _ _ _ _ hi]
      have e : allOnes pos = 2 ^ (57 + 6) - 1 := rfl
      rw [e, (allOnes_step b i 57).1, (allOnes_step b i 57).2, allOnes_shift]
      exact ih 9 b i (pos + 1) hi
    | succ r =>
      rw [genLoop_cached _ _ _ _ _ _ _ hi]
      have e : 6 * (r + 1) + 3 = (6 * r + 3) + 6 := by ring
      rw [e, (allOnes_step b i _).1, (allOnes_step b i _).2, allOnes_shift]
      exact ih r b i pos hi

/-! ## The shorten handler -/

theorem Get_ne_empty_present (s : Store) (k : String) (h : rdb.Get s k ≠ "") :
    s k = some ⟨rdb.Get s k, (s k).bind Entry.ttl⟩ := by
  unfold rdb.Get at h ⊢
  cases hs : s k with
  | none => simp [hs] at h
  | some e => simp

theorem shortenFinish_store (domain : String) (ttl : Int) (s : Store) (pos : Nat)
    (b58 c k : String) :
    (shortenFinish domain ttl s pos b58 c).store k
      = if k = genShortKey c ∨ k = genLongKey b58 then
          (s k).map (fun e => ⟨e.val, some ttl⟩)
        else s k := by
  have hne : genLongKey b58 ≠ genShortKey c := genLongKey_ne_genShortKey b58 c
  unfold shortenFinish
  dsimp only
  by_cases h1 : k = genShortKey c
  · subst h1
    simp only [true_or, if_true]
    cases hs : s (genShortKey c) with
    | none =>
      rw [rdb.Expire_absent _ _ _ (by rw [rdb.Expire_other _ _ _ _ hne.symm]; exact hs),
        rdb.Expire_other _ _ _ _ hne.symm, hs]
      rfl
    | some e =>
      rw [rdb.Expire_present _ _ _ e (by rw [rdb.Expire_other _ _ _ _ hne.symm]; exact hs)]
      rfl
  · rw [rdb.Expire_other _ _ _ _ h1]
    by_cases h2 : k = genLongKey b58
    · subst h2
      simp only [or_true, if_true]
      cases hs : s (genLongKey b58) with
      | none => rw [rdb.Expire_absent _ _ _ hs, hs]; rfl
      | some e => rw [rdb.Expire_present _ _ _ e hs]; rfl
    · rw [rdb.Expire_other _ _ _ _ h2]
      simp [h1, h2]

theorem shortenFinish_shortUrl (domain : String) (ttl : Int) (s : Store) (pos : Nat)
    (b58 c : String) : (shortenFinish domain ttl s pos b58 c).shortUrl = c := rfl

theorem Get_shortenFinish (domain : String) (ttl : Int) (s : Store) (pos : Nat)
    (b58 c k : String) :
    rdb.Get (shortenFinish domain ttl s pos b58 c).store k = rdb.Get s k := by
  unfold shortenFinish
  dsimp only
  rw [rdb.Get_Expire, rdb.Get_Expire]

theorem MSet_apply (s : Store) (k1 v1 k2 v2 k : String) :
    rdb.MSet s k1 v1 k2 v2 k
      = if k = k2 then some ⟨v2, none⟩ else if k = k1 then some ⟨v1, none⟩ else s k := rfl

theorem shortenHandler_reuse (domain : String) (ttl : Int) (src : Nat → Nat) (fuel : Nat)
    (s : Store) (pos : Nat) (L : String)
    (h : rdb.Get s (genLongKey (base58.Encode (bytes L))) ≠ "") :
    shortenHandler domain ttl src fuel s pos L
      = some (shortenFinish domain ttl s pos (base58.Encode (bytes L))
          (rdb.Get s (genLongKey (base58.Encode (bytes L))))) := by
  unfold shortenHandler
  simp only [h, if_false]

theorem shortenHandler_fresh (domain : String) (ttl : Int) (src : Nat → Nat) (fuel : Nat)
    (s : Store) (pos : Nat) (L : String)
    (h : rdb.Get s (genLongKey (base58.Encode (bytes L))) = "") :
    shortenHandler domain ttl src fuel s pos L
      = (randStringBytesMaskImprSrc src pos fuel 6).map (fun g =>
          shortenFinish domain ttl
            (rdb.MSet s (genLongKey (base58.Encode (bytes L))) g.1 (genShortKey g.1) L)
            g.2 (base58.Encode (bytes L)) g.1) := by
  unfold shortenHandler
  simp only [h, if_true]
  cases randStringBytesMaskImprSrc src pos fuel 6 with
  | none => rfl
  | some g => rfl

theorem String_ne_empty_of_length (s : String) (n : Nat) (h : s.length = n + 1) : s ≠ "" := by
  intro he
  subst he
  simp at h

/-- After the shorten handler has returned `r`, the reverse key holds the
returned code and the code is not empty. -/
theorem shortenHandler_reverse (domain : String) (ttl : Int) (src : Nat → Nat) (fuel : Nat)
    (s : Store) (pos : Nat) (L : String) (r : Shortened)
    (h : shortenHandler domain ttl src fuel s pos L = some r) :
    r.shortUrl ≠ "" ∧
      r.store (genLongKey (base58.Encode (bytes L))) = some ⟨r.shortUrl, some ttl⟩ := by
  by_cases hget : rdb.Get s (genLongKey (base58.Encode (bytes L))) = ""
  · rw [shortenHandler_fresh _ _ _ _ _ _ _ hget, Option.map_eq_some'] at h
    obtain ⟨g, hg, hr⟩ := h
    obtain ⟨c, p⟩ := g
    subst hr
    refine ⟨String_ne_empty_of_length _ 5 (rand_shape _ _ _ _ _ _ hg).1, ?_⟩
    rw [shortenFinish_shortUrl, shortenFinish_store]
    simp only [or_true, if_true, MSet_apply, if_neg (genLongKey_ne_genShortKey _ _)]
    rfl
  · rw [shortenHandler_reuse _ _ _ _ _ _ _ hget] at h
    simp only [Option.some.injEq] at h
    subst h
    refine ⟨hget, ?_⟩
    rw [shortenFinish_shortUrl, shortenFinish_store]
    simp only [or_true, if_true]
    rw [Get_ne_empty_present _ _ hget]
    rfl

/-- After the shorten handler has returned `r`: what the forward key of the
returned code holds. -/
theorem shortenHandler_forward (domain : String) (ttl : Int) (src : Nat → Nat) (fuel : Nat)
    (s : Store) (pos : Nat) (L : String) (r : Shortened)
    (h : shortenHandler domain ttl src fuel s pos L = some r) :
    (rdb.Get s (genLongKey (base58.Encode (bytes L))) = "" →
        r.store (genShortKey r.shortUrl) = some ⟨L, some ttl⟩) ∧
      (rdb.Get s (genLongKey (base58.Encode (bytes L))) ≠ "" →
        r.store (genShortKey r.shortUrl)
          = (s (genShortKey r.shortUrl)).map (fun e => ⟨e.val, some ttl⟩)) := by
  constructor
  · intro hget
    rw [shortenHandler_fresh _ _ _ _ _ _ _ hget, Option.map_eq_some'] at h
    obtain ⟨g, _, hr⟩ := h
    subst hr
    rw [shortenFinish_shortUrl, shortenFinish_store]
    simp only [true_or, if_true, MSet_apply]
    rfl
  · intro hget
    rw [shortenHandler_reuse _ _ _ _ _ _ _ hget] at h
    simp only [Option.some.injEq] at h
    subst h
    rw [shortenFinish_shortUrl, shortenFinish_store]
    simp only [true_or, if_true]

/-! ## Values under forward keys along a sequence of calls -/

theorem Get_resolveHandler (s : Store) (c x : String) :
    rdb.Get (resolveHandler s x).2 (genShortKey c) = rdb.Get s (genShortKey c) := by
  unfold resolveHandler
  dsimp only
  split
  · rfl
  · exact Get_renew_of_ne_lock _ _ _ _ (genShortKey_ne_genLockKey c x)

theorem Get_subHandler (s : Store) (c x : String) :
    rdb.Get (subHandler s x).2 (genShortKey c) = rdb.Get s (genShortKey c) := by
  unfold subHandler
  dsimp only
  split
  · rfl
  · exact Get_renew_of_ne_lock _ _ _ _ (genShortKey_ne_genLockKey c x)

/-- One call changes the value under the forward key of `c` only if it is a
shorten call that generates the code `c` afresh. -/
theorem Get_step (domain : String) (ttl : Int) (src : Nat → Nat) (s : Store) (pos : Nat)
    (op : Op) (o : Outcome) (c : String)
    (h : step domain ttl src s pos op = some o) (hc : o.fresh ≠ some c) :
    rdb.Get o.store (genShortKey c) = rdb.Get s (genShortKey c) := by
  cases op with
  | resolve x =>
    simp only [step, Option.some.injEq] at h
    subst h
    exact Get_resolveHandler s c x
  | sub x =>
    simp only [step, Option.some.injEq] at h
    subst h
    exact Get_subHandler s c x
  | shorten L fuel =>
    simp only [step, Option.map_eq_some'] at h
    obtain ⟨r, hr, ho⟩ := h
    subst ho
    by_cases hget : rdb.Get s (genLongKey (base58.Encode (bytes L))) = ""
    · simp only [hget, if_true] at hc
      rw [shortenHandler_fresh _ _ _ _ _ _ _ hget, Option.map_eq_some'] at hr
      obtain ⟨g, _, hg⟩ := hr
      subst hg
      rw [shortenFinish_shortUrl] at hc
      have hne : genShortKey c ≠ genShortKey g.1 := by
        intro he
        exact hc (by rw [genShortKey_inj he])
      show rdb.Get (shortenFinish domain ttl _ g.2 _ _).store _ = _
      rw [Get_shortenFinish]
      simp only [rdb.Get, MSet_apply, if_neg hne,
        if_neg (genLongKey_ne_genShortKey (base58.Encode (bytes L)) c).symm]
    · rw [shortenHandler_reuse _ _ _ _ _ _ _ hget] at hr
      simp only [Option.some.injEq] at hr
      subst hr
      show rdb.Get (shortenFinish domain ttl _ pos _ _).store _ = _
      rw [Get_shortenFinish]

theorem Get_run (domain : String) (ttl : Int) (src : Nat → Nat) (c : String) (ops : List Op) :
    ∀ (s : Store) (pos : Nat) (w : Store × Nat × List String),
      run domain ttl src s pos ops = some w → c ∉ w.2.2 →
      rdb.Get w.1 (genShortKey c) = rdb.Get s (genShortKey c) := by
  induction ops with
  | nil =>
    intro s pos w h _
    simp only [run, Option.some.injEq] at h
    subst h; rfl
  | cons op ops ih =>
    intro s pos w h hc
    rw [run] at h
    cases hstep : step domain ttl src s pos op with
    | none => simp [hstep] at h
    | some o =>
      simp only [hstep, Option.map_eq_some'] at h
      obtain ⟨w1, hw1, hw⟩ := h
      subst hw
      simp only [List.mem_append, not_or] at hc
      rw [ih _ _ _ hw1 hc.2]
      apply Get_step _ _ _ _ _ _ _ _ hstep
      intro hf
      apply hc.1
      simp [hf]

/-! ## base58 is injective -/

namespace base58

theorem symbol_inj : ∀ d < 58, ∀ e < 58, symbol d = symbol e → d = e := by decide

theorem digitLoop_eq (fuel : Nat) :
    ∀ (x : Nat) (answer : List Char), x < 58 ^ fuel →
      digitLoop fuel x answer = answer ++ (Nat.digits 58 x).map symbol := by
  induction fuel with
  | zero =>
    intro x answer hx
    have : x = 0 := by simpa using hx
    subst this
    simp [digitLoop]
  | succ fuel ih =>
    intro x answer hx
    rw [digitLoop]
    by_cases h0 : 0 < x
    · rw [if_pos h0, ih _ _ (by rw [pow_succ] at hx; omega),
        Nat.digits_def' (by decide) h0]
      simp
    · have : x = 0 := by omega
      subst this
      simp

theorem setBytes_foldl (b : List UInt8) :
    ∀ acc : Nat, b.foldl (fun x c => x * 256 + c.toNat) acc
      = acc * 256 ^ b.length + Nat.ofDigits 256 (b.reverse.map UInt8.toNat) := by
  induction b with
  | nil => intro acc; simp
  | cons c rest ih =>
    intro acc
    rw [List.foldl_cons, ih]
    simp only [List.reverse_cons, List.map_append, List.map_cons, List.map_nil,
      Nat.ofDigits_append, Nat.ofDigits_singleton, List.length_map, List.length_reverse,
      List.length_cons]
    ring

theorem setBytes_eq (b : List UInt8) :
    setBytes b = Nat.ofDigits 256 (b.reverse.map UInt8.toNat) := by
  unfold setBytes
  rw [setBytes_foldl]
  simp

theorem setBytes_lt (b : List UInt8) : setBytes b < 58 ^ (2 * b.length) := by
  have h1 : setBytes b < 256 ^ b.length := by
    rw [setBytes_eq]
    have := @Nat.ofDigits_lt_base_pow_length 256 (b.reverse.map UInt8.toNat) (by decide)
      (by
        intro x hx
        simp only [List.mem_map] at hx
        obtain ⟨c, _, hc⟩ := hx
        rw [← hc]
        exact UInt8.toNat_lt c)
    simpa using this
  have h2 : 256 ^ b.length ≤ 58 ^ (2 * b.length) := by
    rw [pow_mul]
    exact Nat.pow_le_pow_left (by decide) _
  omega

theorem leadingZeros_eq (b : List UInt8) :
    leadingZeros b = List.replicate (zeroCount b) (symbol 0) := by
  induction b with
  | nil => rfl
  | cons c rest ih =>
    rw [leadingZeros, zeroCount]
    split
    · rfl
    · rw [ih]; rfl

theorem zeros_append_strip (b : List UInt8) :
    b = List.replicate (zeroCount b) 0 ++ stripZeros b := by
  induction b with
  | nil => rfl
  | cons c rest ih =>
    rw [zeroCount, stripZeros]
    by_cases hc : c ≠ 0
    · simp [hc]
    · have hc0 : c = 0 := by simpa using hc
      rw [if_neg hc, if_neg hc, List.replicate_succ, List.cons_append, ← ih, hc0]

theorem stripZeros_head (b : List UInt8) : (stripZeros b).head? ≠ some 0 := by
  induction b with
  | nil => simp [stripZeros]
  | cons c rest ih =>
    rw [stripZeros]
    split
    · next hc => simpa using hc
    · exact ih

theorem setBytes_strip (b : List UInt8) : setBytes (stripZeros b) = setBytes b := by
  induction b with
  | nil => rfl
  | cons c rest ih =>
    rw [stripZeros]
    by_cases hc : c ≠ 0
    · rw [if_pos hc]
    · have hc0 : c = 0 := by simpa using hc
      rw [if_neg hc, ih, hc0]
      simp [setBytes]

/-- The closed form of the encoder: the fuel handed to the digit loop is never
used up. -/
theorem Encode_data (b : List UInt8) :
    (Encode b).data
      = List.replicate (zeroCount b) (symbol 0)
          ++ ((Nat.digits 58 (setBytes b)).map symbol).reverse := by
  unfold Encode
  rw [digitLoop_eq _ _ _ (setBytes_lt b), leadingZeros_eq]
  simp

theorem replicate_append_inj {α : Type} (a : α) :
    ∀ (n m : Nat) (l1 l2 : List α), l1.head? ≠ some a → l2.head? ≠ some a →
      List.replicate n a ++ l1 = List.replicate m a ++ l2 → n = m ∧ l1 = l2 := by
  intro n
  induction n with
  | zero =>
    intro m l1 l2 h1 _ h
    cases m with
    | zero => exact ⟨rfl, by simpa using h⟩
    | succ m =>
      exfalso
      apply h1
      simp only [List.replicate_zero, List.nil_append] at h
      rw [h]; rfl
  | succ n ih =>
    intro m l1 l2 h1 h2 h
    cases m with
    | zero =>
      exfalso
      apply h2
      simp only [List.replicate_zero, List.nil_append] at h
      rw [← h]; rfl
    | succ m =>
      simp only [List.replicate_succ, List.cons_append, List.cons.injEq, true_and] at h
      obtain ⟨hnm, hl⟩ := ih m l1 l2 h1 h2 h
      exact ⟨by rw [hnm], hl⟩

theorem digits_head (x : Nat) :
    (((Nat.digits 58 x).map symbol).reverse).head? ≠ some (symbol 0) := by
  rw [List.head?_reverse, List.getLast?_map]
  by_cases hx : x = 0
  · subst hx; simp
  · have hne : Nat.digits 58 x ≠ [] := Nat.digits_ne_nil_iff_ne_zero.2 hx
    rw [List.getLast?_eq_getLast _ hne]
    simp only [Option.map_some', ne_eq, Option.some.injEq]
    intro h
    have hlt : (Nat.digits 58 x).getLast hne < 58 :=
      Nat.digits_lt_base (by decide) (List.getLast_mem hne)
    exact Nat.getLast_digit_ne_zero 58 hx (symbol_inj _ hlt 0 (by decide) h)

theorem map_symbol_inj :
    ∀ (l1 l2 : List Nat), (∀ d ∈ l1, d < 58) → (∀ d ∈ l2, d < 58) →
      l1.map symbol = l2.map symbol → l1 = l2 := by
  intro l1
  induction l1 with
  | nil => intro l2 _ _ h; cases l2 with
    | nil => rfl
    | cons _ _ => simp at h
  | cons d l1 ih =>
    intro l2 h1 h2 h
    cases l2 with
    | nil => simp at h
    | cons e l2 =>
      simp only [List.map_cons, List.cons.injEq] at h
      rw [symbol_inj d (h1 d (by simp)) e (h2 e (by simp)) h.1,
        ih l2 (fun x hx => h1 x (by simp [hx])) (fun x hx => h2 x (by simp [hx])) h.2]

theorem toNat_injective : Function.Injective UInt8.toNat := fun _ _ h => UInt8.ext h

theorem strip_digits (b : List UInt8) :
    (stripZeros b).reverse.map UInt8.toNat = Nat.digits 256 (setBytes b) := by
  rw [← setBytes_strip, setBytes_eq]
  symm
  apply Nat.digits_ofDigits 256 (by decide)
  · intro x hx
    simp only [List.mem_map] at hx
    obtain ⟨c, _, hc⟩ := hx
    rw [← hc]
    exact UInt8.toNat_lt c
  · intro hne h
    rw [List.getLast_eq_iff_getLast_eq_some, List.getLast?_map, List.getLast?_reverse] at h
    rw [Option.map_eq_some'] at h
    obtain ⟨c, hc, hc0⟩ := h
    apply stripZeros_head b
    rw [hc]
    congr 1
    exact toNat_injective hc0

theorem Encode_injective : Function.Injective Encode := by
  intro b1 b2 h
  have hd := congrArg String.data h
  rw [Encode_data, Encode_data] at hd
  obtain ⟨hz, hdig⟩ := replicate_append_inj (symbol 0) _ _ _ _ (digits_head _) (digits_head _) hd
  have hdigits : Nat.digits 58 (setBytes b1) = Nat.digits 58 (setBytes b2) :=
    map_symbol_inj _ _ (fun d hd => Nat.digits_lt_base (by decide) hd)
      (fun d hd => Nat.digits_lt_base (by decide) hd) (List.reverse_injective hdig)
  have hx : setBytes b1 = setBytes b2 := Nat.digits_inj_iff.1 hdigits
  have hs : stripZeros b1 = stripZeros b2 := by
    have := strip_digits b1
    rw [hx, ← strip_digits b2] at this
    exact List.reverse_injective (List.map_injective_iff.2 toNat_injective this)
  rw [zeros_append_strip b1, zeros_append_strip b2, hz, hs]

end base58

/-! ## When the shorten handler returns -/

theorem rand_allOnes_none (pos fuel n : Nat) (hn : 0 < n) :
    randStringBytesMaskImprSrc allOnes pos fuel n = none := by
  unfold randStringBytesMaskImprSrc
  have e : allOnes pos = 2 ^ (6 * letterIdxMax + 3) - 1 := rfl
  rw [e, genLoop_allOnes fuel letterIdxMax _ _ _ (by omega)]
  rfl

theorem rand_returns_of_offered (src : Nat → Nat) (pos n k : Nat)
    (hk : n ≤ offered src pos k) :
    ∃ fuel g, randStringBytesMaskImprSrc src pos fuel n = some g := by
  have key : ∃ fuel r, genLoop src fuel (List.replicate n (Char.ofNat 0)) ((n : Int) - 1)
      (src pos) letterIdxMax (pos + 1) = some r ∧ r.2 ≤ (pos + 1) + (k - 1) := by
    apply genLoop_terminates
    cases k with
    | zero =>
      have : n = 0 := by simpa [offered] using hk
      subst this
      have := Int.natCast_nonneg (accepted letterIdxMax (src pos))
      have := Int.natCast_nonneg (offered src (pos + 1) 0)
      push_cast
      omega
    | succ k =>
      rw [offered_succ] at hk
      have e : letterIdxMax = (letterIdxMax - 1) + 1 := by decide
      rw [e]
      simp only [Nat.add_sub_cancel]
      omega
  obtain ⟨fuel, r, hr, _⟩ := key
  exact ⟨fuel, (String.mk r.1, r.2), by simp [randStringBytesMaskImprSrc, hr]⟩

/-- More fuel does not change what the loop returns. -/
theorem genLoop_mono (src : Nat → Nat) (fuel : Nat) :
    ∀ (b : List Char) (i : Int) (cache remain pos : Nat) (r : List Char × Nat),
      genLoop src fuel b i cache remain pos = some r →
      ∀ m, genLoop src (fuel + m) b i cache remain pos = some r := by
  induction fuel with
  | zero => intro b i cache remain pos r h; simp [genLoop] at h
  | succ fuel ih =>
    intro b i cache remain pos r h m
    have e : fuel + 1 + m = (fuel + m) + 1 := by omega
    rw [e]
    by_cases hi : i < 0
    · rw [genLoop_done _ _ _ _ _ _ _ hi] at h ⊢
      exact h
    · cases remain with
      | zero =>
        rw [genLoop_refill _ _ _ _ _ _ hi] at h ⊢
        exact ih _ _ _ _ _ _ h m
      | succ remain =>
        rw [genLoop_cached _ _ _ _ _ _ _ hi] at h ⊢
        exact ih _ _ _ _ _ _ h m

/-- The result of the generator does not depend on the fuel that let it return. -/
theorem rand_fuel_unique (src : Nat → Nat) (pos n fuel1 fuel2 : Nat) (g1 g2 : String × Nat)
    (h1 : randStringBytesMaskImprSrc src pos fuel1 n = some g1)
    (h2 : randStringBytesMaskImprSrc src pos fuel2 n = some g2) : g1 = g2 := by
  unfold randStringBytesMaskImprSrc at h1 h2
  rw [Option.map_eq_some'] at h1 h2
  obtain ⟨r1, hr1, hg1⟩ := h1
  obtain ⟨r2, hr2, hg2⟩ := h2
  have hr : r1 = r2 := by
    rcases Nat.le_total fuel1 fuel2 with hle | hle
    · have := genLoop_mono src fuel1 _ _ _ _ _ _ hr1 (fuel2 - fuel1)
      rw [Nat.add_sub_cancel' hle, hr2] at this
      exact (Option.some.inj this).symm
    · have := genLoop_mono src fuel2 _ _ _ _ _ _ hr2 (fuel1 - fuel2)
      rw [Nat.add_sub_cancel' hle, hr1] at this
      exact Option.some.inj this
  rw [← hg1, ← hg2, hr]

/-- The response of the shorten handler is the short URL of the returned code. -/
theorem shortenHandler_resp (domain : String) (ttl : Int) (src : Nat → Nat) (fuel : Nat)
    (s : Store) (pos : Nat) (L : String) (r : Shortened)
    (hr : shortenHandler domain ttl src fuel s pos L = some r) :
    r.resp = Response.sendString ("https://" ++ domain ++ "/" ++ r.shortUrl) := by
  by_cases hget : rdb.Get s (genLongKey (base58.Encode (bytes L))) = ""
  · rw [shortenHandler_fresh _ _ _ _ _ _ _ hget, Option.map_eq_some'] at hr
    obtain ⟨g, _, hg⟩ := hr
    subst hg; rfl
  · rw [shortenHandler_reuse _ _ _ _ _ _ _ hget] at hr
    simp only [Option.some.injEq] at hr
    subst hr; rfl

/-- The code the shorten handler returns does not depend on the fuel that let it
return. -/
theorem shortenHandler_fuel_unique (domain : String) (ttl : Int) (src : Nat → Nat)
    (fuel1 fuel2 : Nat) (s : Store) (pos : Nat) (L : String) (r1 r2 : Shortened)
    (h1 : shortenHandler domain ttl src fuel1 s pos L = some r1)
    (h2 : shortenHandler domain ttl src fuel2 s pos L = some r2) :
    r1.shortUrl = r2.shortUrl := by
  by_cases hget : rdb.Get s (genLongKey (base58.Encode (bytes L))) = ""
  · rw [shortenHandler_fresh _ _ _ _ _ _ _ hget, Option.map_eq_some'] at h1 h2
    obtain ⟨g1, hg1, e1⟩ := h1
    obtain ⟨g2, hg2, e2⟩ := h2
    have := rand_fuel_unique src pos 6 fuel1 fuel2 g1 g2 hg1 hg2
    subst e1 e2
    rw [shortenFinish_shortUrl, shortenFinish_shortUrl, this]
  · rw [shortenHandler_reuse _ _ _ _ _ _ _ hget] at h1 h2
    rw [← Option.some.inj h1, ← Option.some.inj h2]

/-- Once the shorten handler has returned `r` for `L`, a run for `L` on the store
it left returns the same code and the same response, whatever the source and the
fuel. -/
theorem shortenHandler_again (domain : String) (ttl : Int) (src : Nat → Nat) (fuel : Nat)
    (s : Store) (pos : Nat) (L : String) (r : Shortened)
    (hr : shortenHandler domain ttl src fuel s pos L = some r)
    (src2 : Nat → Nat) (fuel2 : Nat) :
    ∃ r2, shortenHandler domain ttl src2 fuel2 r.store r.pos L = some r2 ∧
      r2.shortUrl = r.shortUrl ∧ r2.resp = r.resp := by
  obtain ⟨hne, hrev⟩ := shortenHandler_reverse _ _ _ _ _ _ _ _ hr
  have hget2 : rdb.Get r.store (genLongKey (base58.Encode (bytes L))) = r.shortUrl := by
    simp [rdb.Get, hrev]
  have hreuse := shortenHandler_reuse domain ttl src2 fuel2 r.store r.pos L
    (by rw [hget2]; exact hne)
  refine ⟨_, hreuse, ?_, ?_⟩
  · rw [shortenFinish_shortUrl, hget2]
  · rw [shortenHandler_resp _ _ _ _ _ _ _ _ hr, shortenHandler_resp _ _ _ _ _ _ _ _ hreuse,
      shortenFinish_shortUrl, hget2]

/-! ## Durations: wrap-around -/

theorem int64_of_inRange (x : Int) (hlo : -(2 : Int) ^ 63 ≤ x) (hhi : x < 2 ^ 63) :
    int64 x = x := by
  unfold int64
  rw [Int.emod_eq_of_lt (by omega) (by omega)]
  omega

/-! ## Renewal -/

/-- C9. Miss behaviour: when the forward key of `c` is absent or holds the empty
string (the lookup yields the empty string), both resolve handlers answer with
the not-found text and return the store as it was. -/
theorem resolve_miss_unchanged (s : Store) (c : String)
    (hmiss : rdb.Get s (genShortKey c) = "") :
    resolveHandler s c = (notFound, s) ∧ subHandler s c = (notFound, s) := by
  simp [resolveHandler, subHandler, hmiss]

theorem resolve_miss_unchanged_witness :
    rdb.Get lockedStore (genShortKey "abc123") = "" ∧
      resolveHandler lockedStore "abc123" = (notFound, lockedStore) ∧
      subHandler lockedStore "abc123" = (notFound, lockedStore) :=
  ⟨by decide, resolve_miss_unchanged lockedStore "abc123" (by decide)⟩

/-- C7. Renewal rate limit: when the lock key of `c` is present, `renew c L`
returns the store unchanged; and whatever the store, a second `renew` for the
same short code right after a first one changes nothing. -/
theorem renew_locked_noop (s : Store) (c L L2 : String) :
    ((s (genLockKey c)).isSome → renew s c L = s) ∧
      renew (renew s c L) c L2 = renew s c L :=
  ⟨renew_of_locked s c L, renew_of_locked _ c L2 (renew_lock_present s c L)⟩

theorem renew_locked_noop_witness :
    (lockedStore (genLockKey "abc123")).isSome ∧
      renew lockedStore "abc123" "http://a" = lockedStore :=
  ⟨by decide, (renew_locked_noop lockedStore "abc123" "http://a" "http://a").1 (by decide)⟩

/-- C6 as stated fails: with the mapping stored in both directions, no lock and
a remaining TTL of 9223372036 s on the forward key, the sum computed by `renew`
exceeds the 64-bit range, and the TTL set is not R + 1 day. -/
theorem renew_overflow_counterexample :
    mappedStore 9223372036000000000 (genShortKey "abc123")
        = some ⟨"http://a", some 9223372036000000000⟩ ∧
      mappedStore 9223372036000000000 (genLongKey (base58.Encode (bytes "http://a")))
        = some ⟨"abc123", some 9223372036000000000⟩ ∧
      mappedStore 9223372036000000000 (genLockKey "abc123") = none ∧
      rdb.TTL (mappedStore 9223372036000000000) (genShortKey "abc123") = 9223372036000000000 ∧
      rdb.TTL (renew (mappedStore 9223372036000000000) "abc123" "http://a") (genShortKey "abc123")
        ≠ 9223372036000000000 + secondsPerDay := by
  decide

/-- C6, amended. Sliding extension: when the mapping (L, c) is stored in both
directions, the lock key of `c` is absent, the forward key has remaining TTL
`R` other than the no-expiry sentinel, and `R + 1 day` lies in the 64-bit range
of a duration, then after `renew c L` the forward and the reverse key both have
remaining TTL exactly `R + 1 day`. -/
theorem renew_adds_one_day (s : Store) (c L : String) (R : Int) (tf tr : Option Int)
    (hfwd : s (genShortKey c) = some ⟨L, tf⟩)
    (hrev : s (genLongKey (base58.Encode (bytes L))) = some ⟨c, tr⟩)
    (hlock : s (genLockKey c) = none)
    (hR : rdb.TTL s (genShortKey c) = R) (hne : R ≠ -1)
    (hlo : -(2 : Int) ^ 63 ≤ R + secondsPerDay) (hhi : R + secondsPerDay < 2 ^ 63) :
    rdb.TTL (renew s c L) (genShortKey c) = R + secondsPerDay ∧
      rdb.TTL (renew s c L) (genLongKey (base58.Encode (bytes L))) = R + secondsPerDay := by
  have hls : genLockKey c ≠ genShortKey c := (genShortKey_ne_genLockKey c c).symm
  have hll : genLockKey c ≠ genLongKey (base58.Encode (bytes L)) :=
    (genLongKey_ne_genLockKey _ c).symm
  have hsl : genShortKey c ≠ genLongKey (base58.Encode (bytes L)) :=
    (genLongKey_ne_genShortKey _ c).symm
  have hw : int64 (R + defaultRenewal * secondsPerDay) = R + secondsPerDay := by
    rw [show defaultRenewal * secondsPerDay = secondsPerDay by simp [defaultRenewal]]
    exact int64_of_inRange _ hlo hhi
  have hR2 : rdb.TTL (fun k => if k = genLockKey c then some ⟨"1", some (defaultRenewal * secondsPerDay)⟩ else s k)
      (genShortKey c) = R := by
    rw [← hR]; simp [rdb.TTL, hls.symm]
  unfold renew
  simp only [rdb.SetNX, hlock, if_true, hR2, ne_eq, hne, not_false_eq_true, hw]
  constructor
  · simp [rdb.TTL, rdb.Expire, hll.symm, hls.symm, hsl, hsl.symm, hfwd, hrev]
  · simp [rdb.TTL, rdb.Expire, hll.symm, hls.symm, hsl, hsl.symm, hfwd, hrev]

theorem renew_adds_one_day_witness :
    rdb.TTL (renew (mappedStore 5000000000) "abc123" "http://a") (genShortKey "abc123")
        = 5000000000 + secondsPerDay ∧
      rdb.TTL (renew (mappedStore 5000000000) "abc123" "http://a")
        (genLongKey (base58.Encode (bytes "http://a"))) = 5000000000 + secondsPerDay :=
  renew_adds_one_day (mappedStore 5000000000) "abc123" "http://a" 5000000000
    (some 5000000000) (some 5000000000)
    (by decide) (by decide) (by decide) (by decide) (by decide) (by decide) (by decide)

/-! ## The code generator -/

/-- C3. Code shape: whenever `randStringBytesMaskImprSrc n` returns, the result has
exactly `n` characters, each one a symbol of `letterBytes`; `letterBytes` has 62
symbols, all distinct, each a digit, a lower-case or an upper-case letter; and a
code generated by the shorten handler (no reverse entry found) has length 6 and
only symbols of `letterBytes`. -/
theorem code_shape (src : Nat → Nat) (pos fuel n : Nat) (s : String) (pos1 : Nat)
    (hret : randStringBytesMaskImprSrc src pos fuel n = some (s, pos1)) :
    (s.length = n ∧ ∀ ch ∈ s.data, ch ∈ letterBytes.data) ∧
      (letterBytes.length = 62 ∧ letterBytes.data.Nodup ∧
        ∀ ch ∈ letterBytes.data, ch.isDigit ∨ ch.isLower ∨ ch.isUpper) ∧
      (∀ (domain : String) (ttl : Int) (st : Store) (longUrl : String) (r : Shortened),
        rdb.Get st (genLongKey (base58.Encode (bytes longUrl))) = "" →
        shortenHandler domain ttl src fuel st pos longUrl = some r →
        r.shortUrl.length = 6 ∧ ∀ ch ∈ r.shortUrl.data, ch ∈ letterBytes.data) := by
  refine ⟨rand_shape src pos fuel n s pos1 hret, ⟨by decide, by decide, by decide⟩, ?_⟩
  intro domain ttl st longUrl r hget hr
  unfold shortenHandler at hr
  simp only [hget, if_true] at hr
  cases hgen : randStringBytesMaskImprSrc src pos fuel 6 with
  | none => simp [hgen] at hr
  | some res =>
    obtain ⟨c, p⟩ := res
    simp only [hgen, Option.some.injEq] at hr
    subst hr
    exact rand_shape src pos fuel 6 c p hgen

theorem code_shape_witness :
    ("000000".length = 6 ∧ ∀ ch ∈ "000000".data, ch ∈ letterBytes.data) :=
  (code_shape (fun _ => 0) 0 7 6 "000000" 1 (by decide)).1

/-- C10 as stated fails: on the source that always returns `2^63 - 1`, a 63-bit
value, every chunk is 63 and is rejected, so the loop for `n = 1` returns for
no amount of fuel. -/
theorem rand_allOnes_never_returns :
    (∀ k, allOnes k < 2 ^ 63) ∧
      ∀ fuel, randStringBytesMaskImprSrc allOnes 0 fuel 1 = none := by
  refine ⟨fun k => by simp [allOnes], fun fuel => ?_⟩
  unfold randStringBytesMaskImprSrc
  have e : allOnes 0 = 2 ^ (6 * letterIdxMax + 3) - 1 := rfl
  rw [e, genLoop_allOnes fuel letterIdxMax _ _ _ (by decide)]
  rfl

/-- C10, amended. The loop of `randStringBytesMaskImprSrc n` ends exactly when the
source offers enough accepted chunks: if the `k` values from the current
position on hold at least `n` accepted chunks, the call returns after reading at
most `max k 1` values; and a call that returns has found `n` accepted chunks in
the values it read. -/
theorem rand_terminates_when_offered (src : Nat → Nat) (pos n : Nat) :
    (∀ k, n ≤ offered src pos k →
      ∃ fuel s pos1, randStringBytesMaskImprSrc src pos fuel n = some (s, pos1) ∧
        pos1 ≤ pos + max k 1) ∧
      (∀ fuel s pos1, randStringBytesMaskImprSrc src pos fuel n = some (s, pos1) →
        pos < pos1 ∧ n ≤ offered src pos (pos1 - pos)) := by
  constructor
  · intro k hk
    have key : ∃ fuel r, genLoop src fuel (List.replicate n (Char.ofNat 0)) ((n : Int) - 1)
        (src pos) letterIdxMax (pos + 1) = some r ∧ r.2 ≤ (pos + 1) + (k - 1) := by
      apply genLoop_terminates
      cases k with
      | zero =>
        have : n = 0 := by simpa [offered] using hk
        subst this
        have := Int.natCast_nonneg (accepted letterIdxMax (src pos))
        have := Int.natCast_nonneg (offered src (pos + 1) 0)
        push_cast
        omega
      | succ k =>
        rw [offered_succ] at hk
        have e : letterIdxMax = (letterIdxMax - 1) + 1 := by decide
        rw [e]
        simp only [Nat.add_sub_cancel]
        omega
    obtain ⟨fuel, r, hr, hle⟩ := key
    refine ⟨fuel, String.mk r.1, r.2, ?_, by omega⟩
    simp [randStringBytesMaskImprSrc, hr]
  · intro fuel s pos1 h
    unfold randStringBytesMaskImprSrc at h
    rw [Option.map_eq_some'] at h
    obtain ⟨r, hr, hs⟩ := h
    simp only [Prod.mk.injEq] at hs
    obtain ⟨_, hp⟩ := hs
    subst hp
    obtain ⟨hle, hacc⟩ := genLoop_needs src fuel _ _ _ _ _ _ hr
    refine ⟨by omega, ?_⟩
    have e : r.2 - pos = (r.2 - (pos + 1)) + 1 := by omega
    rw [e, offered_succ]
    have e2 : letterIdxMax = (letterIdxMax - 1) + 1 := by decide
    rw [e2] at hacc
    omega

theorem rand_terminates_when_offered_witness :
    6 ≤ offered (fun _ => 0) 0 1 ∧
      ∃ fuel s pos1, randStringBytesMaskImprSrc (fun _ => 0) 0 fuel 6 = some (s, pos1) ∧
        pos1 ≤ 0 + max 1 1 :=
  ⟨by decide, (rand_terminates_when_offered (fun _ => 0) 0 6).1 1 (by decide)⟩

/-! ## Shortening and resolving -/

/-- C1 as stated fails: on the source that always returns `2^63 - 1`, a 63-bit
value, with no reverse entry for `http://a` in the store, the first run of the
shorten handler returns for no amount of fuel, so no code is returned at all. -/
theorem shorten_never_returns_on_allOnes :
    (∀ k, allOnes k < 2 ^ 63) ∧
      rdb.Get emptyStore (genLongKey (base58.Encode (bytes "http://a"))) = "" ∧
      ∀ fuel, shortenHandler "s.example" 5 allOnes fuel emptyStore 0 "http://a" = none := by
  refine ⟨fun k => by simp [allOnes], by decide, fun fuel => ?_⟩
  rw [shortenHandler_fresh _ _ _ _ _ _ _ (by decide), rand_allOnes_none 0 fuel 6 (by decide)]
  rfl

/-- C1, amended. Idempotent shortening: when a reverse entry for `L` exists or
the source offers six accepted chunks within `k` values from the current
position, the shorten handler returns a code for `L`; the code does not depend
on the fuel that let it return; and a second run for `L` on the store the first
one left returns the same code and the same response, whatever the random
source yields and whatever fuel it is given. -/
theorem shorten_twice_same_code (domain : String) (ttl : Int) (src : Nat → Nat)
    (s : Store) (pos : Nat) (L : String) (k : Nat)
    (hret : rdb.Get s (genLongKey (base58.Encode (bytes L))) ≠ "" ∨ 6 ≤ offered src pos k) :
    ∃ fuel r, shortenHandler domain ttl src fuel s pos L = some r ∧
      (∀ fuel1 r1, shortenHandler domain ttl src fuel1 s pos L = some r1 →
        r1.shortUrl = r.shortUrl) ∧
      ∀ (src2 : Nat → Nat) (fuel2 : Nat),
        ∃ r2, shortenHandler domain ttl src2 fuel2 r.store r.pos L = some r2 ∧
          r2.shortUrl = r.shortUrl ∧ r2.resp = r.resp := by
  have hsome : ∃ fuel r, shortenHandler domain ttl src fuel s pos L = some r := by
    by_cases hget : rdb.Get s (genLongKey (base58.Encode (bytes L))) = ""
    · rcases hret with h | h
      · exact absurd hget h
      · obtain ⟨fuel, g, hg⟩ := rand_returns_of_offered src pos 6 k h
        exact ⟨fuel, _, by rw [shortenHandler_fresh _ _ _ _ _ _ _ hget, hg]; rfl⟩
    · exact ⟨0, _, shortenHandler_reuse _ _ _ _ _ _ _ hget⟩
  obtain ⟨fuel, r, hr⟩ := hsome
  exact ⟨fuel, r, hr,
    fun fuel1 r1 h1 => shortenHandler_fuel_unique _ _ _ _ _ _ _ _ _ _ h1 hr,
    fun src2 fuel2 => shortenHandler_again _ _ _ _ _ _ _ _ hr src2 fuel2⟩

theorem shorten_twice_same_code_witness :
    6 ≤ offered collidingSrc 0 1 ∧
      ∃ fuel r, shortenHandler "s.example" 5 collidingSrc fuel emptyStore 0 "http://a" = some r ∧
        (∀ fuel1 r1,
          shortenHandler "s.example" 5 collidingSrc fuel1 emptyStore 0 "http://a" = some r1 →
          r1.shortUrl = r.shortUrl) ∧
        ∀ (src2 : Nat → Nat) (fuel2 : Nat),
          ∃ r2, shortenHandler "s.example" 5 src2 fuel2 r.store r.pos "http://a" = some r2 ∧
            r2.shortUrl = r.shortUrl ∧ r2.resp = r.resp :=
  ⟨by decide,
    shorten_twice_same_code "s.example" 5 collidingSrc emptyStore 0 "http://a" 1
      (Or.inr (by decide))⟩

/-- C8 as stated fails: in a store that holds the reverse entry of `http://a`
but not the forward key of its code, the shorten handler returns the reused code
`abc123` and the forward key still does not exist. -/
theorem shorten_reuse_forward_absent :
    (shortenHandler "s.example" 5 collidingSrc 7 reverseOnlyStore 0 "http://a").map
        (fun r => (r.shortUrl, r.store (genShortKey r.shortUrl),
          r.store (genLongKey (base58.Encode (bytes "http://a")))))
      = some ("abc123", none, some ⟨"abc123", some 5⟩) := by
  decide

/-- C8, amended. Shorten is a keep-alive: after the shorten handler returns code
`c` for `L`, the reverse key exists, holds `c` and has remaining TTL `ttl`; the
forward key of `c` exists with remaining TTL `ttl` whenever `c` was freshly
generated or the forward key was present before the call. -/
theorem shorten_arms_both (domain : String) (ttl : Int) (src : Nat → Nat) (fuel : Nat)
    (s : Store) (pos : Nat) (L : String) (r : Shortened)
    (hr : shortenHandler domain ttl src fuel s pos L = some r) :
    (r.store (genLongKey (base58.Encode (bytes L))) = some ⟨r.shortUrl, some ttl⟩ ∧
      rdb.TTL r.store (genLongKey (base58.Encode (bytes L))) = ttl) ∧
    ((rdb.Get s (genLongKey (base58.Encode (bytes L))) = "" ∨
        (s (genShortKey r.shortUrl)).isSome) →
      (∃ v, r.store (genShortKey r.shortUrl) = some ⟨v, some ttl⟩) ∧
        rdb.TTL r.store (genShortKey r.shortUrl) = ttl) := by
  obtain ⟨_, hrev⟩ := shortenHandler_reverse _ _ _ _ _ _ _ _ hr
  obtain ⟨hfresh, hreuse⟩ := shortenHandler_forward _ _ _ _ _ _ _ _ hr
  refine ⟨⟨hrev, by simp [rdb.TTL, hrev]⟩, ?_⟩
  intro h
  by_cases hget : rdb.Get s (genLongKey (base58.Encode (bytes L))) = ""
  · exact ⟨⟨L, hfresh hget⟩, by simp [rdb.TTL, hfresh hget]⟩
  · rcases h with h | h
    · exact absurd h hget
    · cases hs : s (genShortKey r.shortUrl) with
      | none => simp [hs] at h
      | some e =>
        have := hreuse hget
        rw [hs] at this
        exact ⟨⟨e.val, this⟩, by simp [rdb.TTL, this]⟩

theorem shorten_arms_both_witness :
    rdb.TTL (shortenFinish "s.example" 5 (mappedStore 3) 0 (base58.Encode (bytes "http://a"))
        "abc123").store (genLongKey (base58.Encode (bytes "http://a"))) = 5 ∧
      rdb.TTL (shortenFinish "s.example" 5 (mappedStore 3) 0 (base58.Encode (bytes "http://a"))
        "abc123").store (genShortKey "abc123") = 5 :=
  ⟨(shorten_arms_both "s.example" 5 collidingSrc 7 (mappedStore 3) 0 "http://a"
      (shortenFinish "s.example" 5 (mappedStore 3) 0 (base58.Encode (bytes "http://a")) "abc123")
      (by rfl)).1.2,
    ((shorten_arms_both "s.example" 5 collidingSrc 7 (mappedStore 3) 0 "http://a"
      (shortenFinish "s.example" 5 (mappedStore 3) 0 (base58.Encode (bytes "http://a")) "abc123")
      (by rfl)).2 (Or.inr (by decide))).2⟩

/-- C2 as stated fails: from the empty store, shortening `http://a` and then
`http://b` with a source that yields the same code twice reaches a store in
which shortening `http://a` returns `000000` while resolving `000000` right
afterwards redirects to `http://b`. -/
theorem round_trip_broken_by_collision :
    (run "s.example" 5 collidingSrc emptyStore 0
        [Op.shorten "http://a" 7, Op.shorten "http://b" 7]).bind
      (fun w => (shortenHandler "s.example" 5 collidingSrc 7 w.1 w.2.1 "http://a").map
        (fun r => (r.shortUrl, (resolveHandler r.store r.shortUrl).1)))
      = some ("000000", Response.redirect "http://b" 301) := by
  decide

/-- C2, amended. Round trip: for every non-empty long URL `L` and every store
state, if the shorten handler returns code `c` and either `c` was freshly
generated by this call or the forward key of `c` held `L` before it, then
resolving `c` right afterwards finds the mapping and answers with `L` (as the
redirect target, or as the proxied target for `/sub`). -/
theorem shorten_then_resolve (domain : String) (ttl : Int) (src : Nat → Nat) (fuel : Nat)
    (s : Store) (pos : Nat) (L : String) (r : Shortened) (hL : L ≠ "")
    (hr : shortenHandler domain ttl src fuel s pos L = some r)
    (hown : rdb.Get s (genLongKey (base58.Encode (bytes L))) = "" ∨
      rdb.Get s (genShortKey r.shortUrl) = L) :
    (resolveHandler r.store r.shortUrl).1 = Response.redirect L 301 ∧
      (subHandler r.store r.shortUrl).1 = Response.proxyDo L := by
  obtain ⟨hfresh, hreuse⟩ := shortenHandler_forward _ _ _ _ _ _ _ _ hr
  have hget : rdb.Get r.store (genShortKey r.shortUrl) = L := by
    by_cases hg : rdb.Get s (genLongKey (base58.Encode (bytes L))) = ""
    · simp [rdb.Get, hfresh hg]
    · rcases hown with h | h
      · exact absurd h hg
      · have hp := Get_ne_empty_present s (genShortKey r.shortUrl) (by rw [h]; exact hL)
        have := hreuse hg
        rw [hp] at this
        simp [rdb.Get, this] at h ⊢
        rw [hp] at h
        simpa using h
  simp [resolveHandler, subHandler, hget, hL]

theorem shorten_then_resolve_witness :
    (resolveHandler (shortenFinish "s.example" 5 (mappedStore 3) 0
        (base58.Encode (bytes "http://a")) "abc123").store "abc123").1
      = Response.redirect "http://a" 301 :=
  (shorten_then_resolve "s.example" 5 collidingSrc 7 (mappedStore 3) 0 "http://a"
    (shortenFinish "s.example" 5 (mappedStore 3) 0 (base58.Encode (bytes "http://a")) "abc123")
    (by decide) (by rfl) (Or.inr (by decide))).1

/-- C4 as stated fails: shorten `http://a`, resolve `000000` (it redirects to
`http://a`), shorten `http://b` with a source that yields the same code again;
resolving `000000` now redirects to `http://b`. -/
theorem target_changes_on_collision :
    (run "s.example" 5 collidingSrc emptyStore 0 [Op.shorten "http://a" 7]).map
        (fun w => (resolveHandler w.1 "000000").1)
      = some (Response.redirect "http://a" 301) ∧
    (run "s.example" 5 collidingSrc emptyStore 0
        [Op.shorten "http://a" 7, Op.resolve "000000", Op.shorten "http://b" 7]).map
        (fun w => (resolveHandler w.1 "000000").1)
      = some (Response.redirect "http://b" 301) ∧
    collidingSrc 0 ≠ collidingSrc 1 := by
  decide

/-- C4, amended. A short code keeps its target: once the resolve handler has
answered `c` (with a redirect to `L` or with not-found), after any sequence of
shorten and resolve calls in which no shorten call generates the code `c`
afresh, the value under the forward key of `c` is unchanged and the resolve
handlers answer `c` as before. -/
theorem target_kept_without_collision (domain : String) (ttl : Int) (src : Nat → Nat)
    (s : Store) (pos : Nat) (c : String) (ops : List Op) (w : Store × Nat × List String)
    (hrun : run domain ttl src (resolveHandler s c).2 pos ops = some w)
    (hfresh : c ∉ w.2.2) :
    rdb.Get w.1 (genShortKey c) = rdb.Get s (genShortKey c) ∧
      (resolveHandler w.1 c).1 = (resolveHandler s c).1 ∧
      (subHandler w.1 c).1 = (subHandler s c).1 := by
  have hget : rdb.Get w.1 (genShortKey c) = rdb.Get s (genShortKey c) := by
    rw [Get_run domain ttl src c ops _ pos w hrun hfresh, Get_resolveHandler]
  refine ⟨hget, ?_, ?_⟩
  · simp only [resolveHandler, hget]
    split <;> rfl
  · simp only [subHandler, hget]
    split <;> rfl

theorem target_kept_without_collision_witness :
    rdb.Get (resolveHandler (shortenFinish "s.example" 5
        (rdb.MSet (resolveHandler (mappedStore 3) "abc123").2
          (genLongKey (base58.Encode (bytes "http://b"))) "000000" (genShortKey "000000")
          "http://b") 1 (base58.Encode (bytes "http://b")) "000000").store "abc123").2
        (genShortKey "abc123")
      = rdb.Get (mappedStore 3) (genShortKey "abc123") :=
  (target_kept_without_collision "s.example" 5 collidingSrc (mappedStore 3) 0 "abc123"
    [Op.shorten "http://b" 7, Op.resolve "abc123"]
    ((resolveHandler (shortenFinish "s.example" 5
        (rdb.MSet (resolveHandler (mappedStore 3) "abc123").2
          (genLongKey (base58.Encode (bytes "http://b"))) "000000" (genShortKey "000000")
          "http://b") 1 (base58.Encode (bytes "http://b")) "000000").store "abc123").2,
      1, ["000000"])
    (by rfl) (by decide)).1

/-! ## Reverse keys -/

/-- C5. Collision-free reverse keys: two distinct byte sequences never get the
same reverse key `genLongKey (base58.Encode L)`; the encoder is a total function
on byte sequences, and its digit loop always runs to completion: the result is
one `1` per leading zero byte followed by the base-58 digits of the big-endian
value, most significant first, and every digit indexes into the alphabet. -/
theorem reverse_key_injective :
    (∀ L1 L2 : List UInt8, L1 ≠ L2 →
      genLongKey (base58.Encode L1) ≠ genLongKey (base58.Encode L2)) ∧
    (∀ L : List UInt8, (base58.Encode L).data
      = List.replicate (base58.zeroCount L) '1'
          ++ ((Nat.digits 58 (base58.setBytes L)).map base58.symbol).reverse) ∧
    (∀ L : List UInt8, ∀ d ∈ Nat.digits 58 (base58.setBytes L), d < base58.alphabet.length) := by
  refine ⟨?_, ?_, ?_⟩
  · intro L1 L2 hne h
    exact hne (base58.Encode_injective (genLongKey_inj h))
  · intro L
    exact base58.Encode_data L
  · intro L d hd
    exact Nat.digits_lt_base (by decide) hd

theorem reverse_key_injective_witness :
    genLongKey (base58.Encode (bytes "http://a")) ≠ genLongKey (base58.Encode (bytes "http://b")) :=
  reverse_key_injective.1 (bytes "http://a") (bytes "http://b") (by decide)

end ShortUrl
